import Mathlib

/-!
Verification of a minimal regular-expression engine (`main.py`).

The engine pipeline is: `Tokenizer` (cursor over the pattern string) →
`Parser.parse_sequence` (recursive descent, building a `SequenceNode` AST) →
`Node.match` (each AST node maps a start position to the position after the
match, or the failure sentinel `-1`) → `RegexEngine.match` (fullmatch: the
AST must consume the whole text from position 0).

Strings are embedded as `List Char`.  Positions are `Int`, with `-1` the
failure sentinel exactly as in the source.  The two unbounded loops of the
source (the `while True` loops of `StarNode.match`/`PlusNode.match`, and the
parser's token loop) are embedded with an explicit fuel parameter; fuel
exhaustion is the `none` result for the matcher and the identity result for
the parser.  Theorems below prove that the fuel used by the engine is always
sufficient (the result is stable under any larger fuel), which is the
shallow-embedding form of the source's termination.
-/

/-- A token of `Tokenizer.next_token`: either a bare structural symbol
(one of `( ) * + ? .`) or a `('CHAR', c)` literal tuple. -/
inductive Token where
  | sym (c : Char)
  | char (c : Char)
deriving DecidableEq, Repr

/-- The character value of a token: `token[1] if isinstance(token, tuple)
else token` in the parser's loop. -/
def tokenValue : Token → Char
  | Token.sym c => c
  | Token.char c => c

/-- The tokenizer's state: the pattern and a cursor position into it. -/
structure Tokenizer where
  pattern : List Char
  position : Nat
deriving DecidableEq, Repr

/-- `Tokenizer.next_token`: return `None` at the end of the pattern,
otherwise the current character (advancing the cursor), as a bare symbol
when it is one of `()*+?.` and as a `CHAR` tuple otherwise. -/
def next_token (t : Tokenizer) : Option Token × Tokenizer :=
  if h : t.position < t.pattern.length then
    let c := t.pattern.get ⟨t.position, h⟩
    (some (if c ∈ ['(', ')', '*', '+', '?', '.'] then Token.sym c else Token.char c),
      ⟨t.pattern, t.position + 1⟩)
  else
    (none, t)

/-- `Tokenizer.peek`: the next pattern character without advancing. -/
def peek (t : Tokenizer) : Option Char :=
  if h : t.position < t.pattern.length then
    some (t.pattern.get ⟨t.position, h⟩)
  else
    none

/-- `self.tokenizer.position += 1`, used by the parser to consume a peeked
character. -/
def consume (t : Tokenizer) : Tokenizer :=
  ⟨t.pattern, t.position + 1⟩

/-- The AST node family: `CharNode` (literal, or wildcard when its stored
character is `'.'`), `StarNode`, `PlusNode`, `QuestionNode`, `DotNode`,
`StartAnchorNode`, `EndAnchorNode`, `SequenceNode`. -/
inductive Node where
  | charNode (c : Char)
  | star (child : Node)
  | plus (child : Node)
  | question (child : Node)
  | dot
  | startAnchor
  | endAnchor
  | seq (children : List Node)

/-- `match(text, pos)` of each node, with an explicit fuel bound on the
number of evaluation steps; `none` means the fuel ran out (the source would
still be looping), `some p` is the returned position (`-1` = failure).

Case by case against the source:
* `CharNode.match`: if `pos < len(text)` and `text[pos] == self.char or
  self.char == '.'` then `pos + 1` else `-1`.  The extra `0 ≤ pos` conjunct
  makes the in-bounds check mean indexing from the front: in the source a
  negative `pos` would index from the end of the string, but no negative
  position ever reaches a node, since matching starts at 0, failures are
  checked for `-1` before being passed on, and successful results of every
  node are ≥ the (non-negative) position it was given.
* `StarNode.match`: the `while True` loop — on child failure return the
  position reached so far, otherwise continue from the child's result.
* `PlusNode.match`: one child attempt (failure is `-1`), then a `while True`
  loop textually identical to `StarNode.match`'s, embedded as a step into
  the `star` case at the reached position.
* `QuestionNode.match`: child result if it is not `-1`, else `pos`.
* `DotNode.match`: `pos + 1` if `pos < len(text)` else `-1` (no indexing
  happens in the source, so no bounds conjunct is added).
* `StartAnchorNode.match` / `EndAnchorNode.match`: `pos` if `pos == 0` /
  `pos == len(text)`, else `-1`.
* `SequenceNode.match`: thread the position through the children in order,
  returning `-1` as soon as one child fails. -/
def Node.matchF : Nat → List Char → Node → Int → Option Int
  | 0, _, _, _ => none
  | _ + 1, text, Node.charNode c, pos =>
      some (if 0 ≤ pos ∧ pos < (text.length : Int) then
              if text.get? pos.toNat = some c ∨ c = '.' then pos + 1 else -1
            else -1)
  | fuel + 1, text, Node.star child, pos =>
      match Node.matchF fuel text child pos with
      | none => none
      | some next_pos =>
          if next_pos = -1 then some pos
          else Node.matchF fuel text (Node.star child) next_pos
  | fuel + 1, text, Node.plus child, pos =>
      match Node.matchF fuel text child pos with
      | none => none
      | some match_pos =>
          if match_pos = -1 then some (-1)
          else Node.matchF fuel text (Node.star child) match_pos
  | fuel + 1, text, Node.question child, pos =>
      match Node.matchF fuel text child pos with
      | none => none
      | some next_pos => some (if next_pos ≠ -1 then next_pos else pos)
  | _ + 1, text, Node.dot, pos =>
      some (if pos < (text.length : Int) then pos + 1 else -1)
  | _ + 1, _, Node.startAnchor, pos =>
      some (if pos = 0 then pos else -1)
  | _ + 1, text, Node.endAnchor, pos =>
      some (if pos = (text.length : Int) then pos else -1)
  | _ + 1, _, Node.seq [], pos => some pos
  | fuel + 1, text, Node.seq (child :: rest), pos =>
      match Node.matchF fuel text child pos with
      | none => none
      | some next_pos =>
          if next_pos = -1 then some (-1)
          else Node.matchF fuel text (Node.seq rest) next_pos

/-- `Parser.parse_sequence`: pull tokens in a loop; stop on end of input or
on a token whose character value is `|` or `)`; recurse on `(` (consuming a
following `)` if peeked); append `DotNode`/anchor nodes for `.`/`^`/`$`;
otherwise build a `CharNode` and wrap it in `StarNode`/`PlusNode`/
`QuestionNode` when the peeked next character is `*`/`+`/`?`.  The loop is
embedded as recursion returning the list of children built; fuel bounds the
number of iterations (one token is consumed per iteration, so
`pattern.length + 1` fuel is always enough — proved below). -/
def parse_sequence : Nat → Tokenizer → List Node × Tokenizer
  | 0, t => ([], t)
  | fuel + 1, t =>
      match next_token t with
      | (none, t1) => ([], t1)
      | (some token, t1) =>
          let token_value := tokenValue token
          if token_value = '|' ∨ token_value = ')' then ([], t1)
          else if token_value = '(' then
            let r1 := parse_sequence fuel t1
            let t2 := if peek r1.2 = some ')' then consume r1.2 else r1.2
            let r2 := parse_sequence fuel t2
            (Node.seq r1.1 :: r2.1, r2.2)
          else if token_value = '.' then
            let r := parse_sequence fuel t1
            (Node.dot :: r.1, r.2)
          else if token_value = '^' then
            let r := parse_sequence fuel t1
            (Node.startAnchor :: r.1, r.2)
          else if token_value = '$' then
            let r := parse_sequence fuel t1
            (Node.endAnchor :: r.1, r.2)
          else
            let char_node := Node.charNode token_value
            let modifier := peek t1
            if modifier = some '*' then
              let r := parse_sequence fuel (consume t1)
              (Node.star char_node :: r.1, r.2)
            else if modifier = some '+' then
              let r := parse_sequence fuel (consume t1)
              (Node.plus char_node :: r.1, r.2)
            else if modifier = some '?' then
              let r := parse_sequence fuel (consume t1)
              (Node.question char_node :: r.1, r.2)
            else
              let r := parse_sequence fuel t1
              (char_node :: r.1, r.2)

/-- `Parser.parse` on a fresh `Tokenizer(pattern)`: the root `SequenceNode`.
One token is consumed per loop iteration, so `pattern.length + 1` fuel never
runs out (`parse_sequence_stable` below). -/
def parse (pattern : List Char) : Node :=
  Node.seq (parse_sequence (pattern.length + 1) ⟨pattern, 0⟩).1

/-- Fuel used by the engine's match call: enough for any AST the parser can
build from `pattern` (proved below: each pattern character contributes at
most `text.length + 5` matching steps). -/
def engineFuel (pattern text : List Char) : Nat :=
  (text.length + 5) * (pattern.length + 1)

/-- `RegexEngine.match`: build a fresh `Tokenizer` and `Parser`, parse the
pattern, and test `ast.match(text, 0) == len(text)`. -/
def RegexEngine_match (pattern text : List Char) : Bool :=
  decide (Node.matchF (engineFuel pattern text) text (parse pattern) 0
            = some ((text.length : Nat) : Int))

example : RegexEngine_match "a*b".toList "aab".toList = true := by decide
example : RegexEngine_match "a*b".toList "aac".toList = false := by decide
example : RegexEngine_match "a+b".toList "b".toList = false := by decide
example : RegexEngine_match "a?b".toList "aab".toList = false := by decide
example : RegexEngine_match "a.b".toList "acb".toList = true := by decide
example : RegexEngine_match "^ab".toList "cab".toList = false := by decide
example : RegexEngine_match "ab$".toList "ab".toList = true := by decide
example : RegexEngine_match "a*b.c+".toList "aab1c".toList = true := by decide
example : RegexEngine_match "a+b?c*".toList "aaabc".toList = true := by decide
example : RegexEngine_match "a+b?c*".toList "aabbc".toList = false := by decide

/-! ### Tokenizer facts -/

theorem next_token_none {t t1 : Tokenizer} (h : next_token t = (none, t1)) :
    t1 = t ∧ t.pattern.length ≤ t.position := by
  unfold next_token at h
  split at h
  · exact absurd h (by simp)
  · exact ⟨(Prod.mk.injEq _ _ _ _ ▸ h).2.symm ▸ rfl, by omega⟩

theorem next_token_some {t t1 : Tokenizer} {tok : Token}
    (h : next_token t = (some tok, t1)) :
    t1 = ⟨t.pattern, t.position + 1⟩ ∧ t.position < t.pattern.length := by
  unfold next_token at h
  split at h
  · exact ⟨((Prod.mk.injEq _ _ _ _).mp h).2.symm, by assumption⟩
  · exact absurd h (by simp)


theorem peek_eq_get? (t : Tokenizer) : peek t = t.pattern.get? t.position := by
  unfold peek
  split
  · rw [List.get?_eq_get]
  · rw [eq_comm, List.get?_eq_none]
    omega

theorem peek_lt {t : Tokenizer} {c : Char} (h : peek t = some c) :
    t.position < t.pattern.length := by
  unfold peek at h
  split at h
  · assumption
  · exact absurd h (by simp)

@[simp] theorem consume_pattern (t : Tokenizer) : (consume t).pattern = t.pattern := rfl

@[simp] theorem consume_position (t : Tokenizer) : (consume t).position = t.position + 1 := rfl

@[simp] theorem mk_pattern (p : List Char) (n : Nat) :
    (Tokenizer.mk p n).pattern = p := rfl

@[simp] theorem mk_position (p : List Char) (n : Nat) :
    (Tokenizer.mk p n).position = n := rfl

/-! ### Parser invariants: the cursor never moves backwards and the pattern
is never changed. -/

theorem tok_step {fuel : Nat}
    (ih : ∀ t, ((parse_sequence fuel t).2).pattern = t.pattern ∧
      t.position ≤ ((parse_sequence fuel t).2).position ∧
      ((parse_sequence fuel t).2).position ≤ max t.position t.pattern.length)
    (t u : Tokenizer) (hu : u.pattern = t.pattern)
    (h1 : t.position ≤ u.position) (h2 : u.position ≤ t.pattern.length) :
    (parse_sequence fuel u).2.pattern = t.pattern ∧
      t.position ≤ (parse_sequence fuel u).2.position ∧
      (parse_sequence fuel u).2.position ≤ max t.position t.pattern.length := by
  obtain ⟨p, a, b⟩ := ih u
  rw [hu] at p b
  exact ⟨p, by omega, by omega⟩

theorem parse_sequence_tok : ∀ fuel t,
    ((parse_sequence fuel t).2).pattern = t.pattern ∧
      t.position ≤ ((parse_sequence fuel t).2).position ∧
      ((parse_sequence fuel t).2).position ≤ max t.position t.pattern.length := by
  intro fuel
  induction fuel with
  | zero => intro t; simp [parse_sequence]
  | succ fuel ih =>
    intro t
    rcases hnt : next_token t with ⟨o, t1⟩
    cases o with
    | none =>
      obtain ⟨rfl, _⟩ := next_token_none hnt
      simp [parse_sequence, hnt]
    | some tok =>
      obtain ⟨rfl, hlt⟩ := next_token_some hnt
      simp only [parse_sequence, hnt]
      split
      · exact ⟨rfl, by simp, by simp; omega⟩
      split
      · -- group case
        obtain ⟨h1p, h1a, h1b⟩ :=
          tok_step ih t ⟨t.pattern, t.position + 1⟩ rfl (by simp) (by simp; omega)
        by_cases hpk :
            peek (parse_sequence fuel ⟨t.pattern, t.position + 1⟩).2 = some ')'
        · have hlt2 := peek_lt hpk
          rw [h1p] at hlt2
          rw [if_pos hpk]
          obtain ⟨h2p, h2a, h2b⟩ :=
            tok_step ih t (consume (parse_sequence fuel ⟨t.pattern, t.position + 1⟩).2)
              (by simp [h1p]) (by simp; omega) (by simp; omega)
          exact ⟨h2p, h2a, h2b⟩
        · rw [if_neg hpk]
          obtain ⟨h2p, h2a, h2b⟩ :=
            tok_step ih t (parse_sequence fuel ⟨t.pattern, t.position + 1⟩).2
              h1p (by omega) (by omega)
          exact ⟨h2p, h2a, h2b⟩
      -- '.', '^', '$' leaves
      split
      · exact tok_step ih t ⟨t.pattern, t.position + 1⟩ rfl (by simp) (by simp; omega)
      split
      · exact tok_step ih t ⟨t.pattern, t.position + 1⟩ rfl (by simp) (by simp; omega)
      split
      · exact tok_step ih t ⟨t.pattern, t.position + 1⟩ rfl (by simp) (by simp; omega)
      -- modifier leaves: '*', '+', '?', bare literal
      split
      · rename_i hm
        have h2 := peek_lt hm
        simp only [mk_pattern, mk_position] at h2
        exact tok_step ih t (consume ⟨t.pattern, t.position + 1⟩) rfl
          (by simp only [consume_position, mk_position]; omega)
          (by simp only [consume_position, mk_position]; omega)
      split
      · rename_i hm
        have h2 := peek_lt hm
        simp only [mk_pattern, mk_position] at h2
        exact tok_step ih t (consume ⟨t.pattern, t.position + 1⟩) rfl
          (by simp only [consume_position, mk_position]; omega)
          (by simp only [consume_position, mk_position]; omega)
      split
      · rename_i hm
        have h2 := peek_lt hm
        simp only [mk_pattern, mk_position] at h2
        exact tok_step ih t (consume ⟨t.pattern, t.position + 1⟩) rfl
          (by simp only [consume_position, mk_position]; omega)
          (by simp only [consume_position, mk_position]; omega)
      · exact tok_step ih t ⟨t.pattern, t.position + 1⟩ rfl (by simp) (by simp; omega)

/-- The parser's loop consumes one pattern character per iteration, so its
result is the same under every fuel larger than the remaining pattern
length: the source's recursion terminates on every pattern. -/
theorem parse_sequence_stable : ∀ f1 f2 t,
    t.pattern.length - t.position < f1 → t.pattern.length - t.position < f2 →
    parse_sequence f1 t = parse_sequence f2 t := by
  intro f1
  induction f1 with
  | zero => intro f2 t h1 h2; omega
  | succ a ih =>
    intro f2 t h1 h2
    cases f2 with
    | zero => omega
    | succ b =>
      rcases hnt : next_token t with ⟨o, t1⟩
      cases o with
      | none => simp only [parse_sequence, hnt]
      | some tok =>
        obtain ⟨rfl, hlt⟩ := next_token_some hnt
        simp only [parse_sequence, hnt]
        have hT : ∀ u : Tokenizer, u.pattern = t.pattern →
            t.position + 1 ≤ u.position → parse_sequence a u = parse_sequence b u :=
          fun u hu hpos => ih b u (by rw [hu]; omega) (by rw [hu]; omega)
        have hrec : parse_sequence a ⟨t.pattern, t.position + 1⟩ =
            parse_sequence b ⟨t.pattern, t.position + 1⟩ :=
          hT ⟨t.pattern, t.position + 1⟩ rfl (by simp)
        by_cases hc1 : tokenValue tok = '|' ∨ tokenValue tok = ')'
        · simp only [if_pos hc1]
        simp only [if_neg hc1]
        by_cases hc2 : tokenValue tok = '('
        · simp only [if_pos hc2]
          rw [hrec]
          obtain ⟨hp2, hmo2, _⟩ := parse_sequence_tok b ⟨t.pattern, t.position + 1⟩
          simp only [mk_pattern, mk_position] at hp2 hmo2
          by_cases hpk : peek (parse_sequence b ⟨t.pattern, t.position + 1⟩).2 = some ')'
          · rw [if_pos hpk,
              hT (consume (parse_sequence b ⟨t.pattern, t.position + 1⟩).2)
                (by simp [hp2]) (by simp; omega)]
          · rw [if_neg hpk,
              hT (parse_sequence b ⟨t.pattern, t.position + 1⟩).2 hp2 (by omega)]
        simp only [if_neg hc2]
        by_cases hc3 : tokenValue tok = '.'
        · simp only [if_pos hc3]; rw [hrec]
        simp only [if_neg hc3]
        by_cases hc4 : tokenValue tok = '^'
        · simp only [if_pos hc4]; rw [hrec]
        simp only [if_neg hc4]
        by_cases hc5 : tokenValue tok = '$'
        · simp only [if_pos hc5]; rw [hrec]
        simp only [if_neg hc5]
        by_cases hm1 : peek ⟨t.pattern, t.position + 1⟩ = some '*'
        · simp only [if_pos hm1]
          rw [hT (consume ⟨t.pattern, t.position + 1⟩) rfl (by simp)]
        simp only [if_neg hm1]
        by_cases hm2 : peek ⟨t.pattern, t.position + 1⟩ = some '+'
        · simp only [if_pos hm2]
          rw [hT (consume ⟨t.pattern, t.position + 1⟩) rfl (by simp)]
        simp only [if_neg hm2]
        by_cases hm3 : peek ⟨t.pattern, t.position + 1⟩ = some '?'
        · simp only [if_pos hm3]
          rw [hT (consume ⟨t.pattern, t.position + 1⟩) rfl (by simp)]
        · simp only [if_neg hm3]
          rw [hrec]

/-! ### Matcher facts -/

/-- Fuel monotonicity: once the matcher converges, more fuel gives the same
result. -/
theorem matchF_mono : ∀ f1 f2 text n pos r, f1 ≤ f2 →
    Node.matchF f1 text n pos = some r → Node.matchF f2 text n pos = some r := by
  intro f1
  induction f1 with
  | zero => intro f2 text n pos r _ h; simp [Node.matchF] at h
  | succ a ih =>
    intro f2 text n pos r hle h
    cases f2 with
    | zero => omega
    | succ b =>
      have hab : a ≤ b := by omega
      cases n with
      | charNode c =>
        rw [Node.matchF] at h ⊢; exact h
      | dot =>
        rw [Node.matchF] at h ⊢; exact h
      | startAnchor =>
        rw [Node.matchF] at h ⊢; exact h
      | endAnchor =>
        rw [Node.matchF] at h ⊢; exact h
      | star child =>
        rw [Node.matchF] at h ⊢
        cases hm : Node.matchF a text child pos with
        | none => rw [hm] at h; exact absurd h (by simp)
        | some next =>
          rw [hm] at h
          rw [ih b text child pos next hab hm]
          dsimp only at h ⊢
          by_cases hneg : next = -1
          · rw [if_pos hneg] at h ⊢; exact h
          · rw [if_neg hneg] at h ⊢
            exact ih b text (Node.star child) next r hab h
      | plus child =>
        rw [Node.matchF] at h ⊢
        cases hm : Node.matchF a text child pos with
        | none => rw [hm] at h; exact absurd h (by simp)
        | some next =>
          rw [hm] at h
          rw [ih b text child pos next hab hm]
          dsimp only at h ⊢
          by_cases hneg : next = -1
          · rw [if_pos hneg] at h ⊢; exact h
          · rw [if_neg hneg] at h ⊢
            exact ih b text (Node.star child) next r hab h
      | question child =>
        rw [Node.matchF] at h ⊢
        cases hm : Node.matchF a text child pos with
        | none => rw [hm] at h; exact absurd h (by simp)
        | some next =>
          rw [hm] at h
          rw [ih b text child pos next hab hm]
          exact h
      | seq cs =>
        cases cs with
        | nil => rw [Node.matchF] at h ⊢; exact h
        | cons child rest =>
          rw [Node.matchF] at h ⊢
          cases hm : Node.matchF a text child pos with
          | none => rw [hm] at h; exact absurd h (by simp)
          | some next =>
            rw [hm] at h
            rw [ih b text child pos next hab hm]
            dsimp only at h ⊢
            by_cases hneg : next = -1
            · rw [if_pos hneg] at h ⊢; exact h
            · rw [if_neg hneg] at h ⊢
              exact ih b text (Node.seq rest) next r hab h

/-! One-step unfolding lemmas for `Node.matchF`, all definitional. -/

theorem matchF_char (f : Nat) (text : List Char) (c : Char) (pos : Int) :
    Node.matchF (f + 1) text (Node.charNode c) pos =
      some (if 0 ≤ pos ∧ pos < (text.length : Int) then
              if text.get? pos.toNat = some c ∨ c = '.' then pos + 1 else -1
            else -1) := rfl

theorem matchF_dot (f : Nat) (text : List Char) (pos : Int) :
    Node.matchF (f + 1) text Node.dot pos =
      some (if pos < (text.length : Int) then pos + 1 else -1) := rfl

theorem matchF_startAnchor (f : Nat) (text : List Char) (pos : Int) :
    Node.matchF (f + 1) text Node.startAnchor pos =
      some (if pos = 0 then pos else -1) := rfl

theorem matchF_endAnchor (f : Nat) (text : List Char) (pos : Int) :
    Node.matchF (f + 1) text Node.endAnchor pos =
      some (if pos = (text.length : Int) then pos else -1) := rfl

theorem matchF_star_step (f : Nat) (text : List Char) (child : Node) (pos : Int) :
    Node.matchF (f + 1) text (Node.star child) pos =
      match Node.matchF f text child pos with
      | none => none
      | some next_pos =>
          if next_pos = -1 then some pos
          else Node.matchF f text (Node.star child) next_pos := rfl

theorem matchF_plus_step (f : Nat) (text : List Char) (child : Node) (pos : Int) :
    Node.matchF (f + 1) text (Node.plus child) pos =
      match Node.matchF f text child pos with
      | none => none
      | some match_pos =>
          if match_pos = -1 then some (-1)
          else Node.matchF f text (Node.star child) match_pos := rfl

theorem matchF_question_step (f : Nat) (text : List Char) (child : Node) (pos : Int) :
    Node.matchF (f + 1) text (Node.question child) pos =
      match Node.matchF f text child pos with
      | none => none
      | some next_pos => some (if next_pos ≠ -1 then next_pos else pos) := rfl

theorem matchF_seq_nil (f : Nat) (text : List Char) (pos : Int) :
    Node.matchF (f + 1) text (Node.seq []) pos = some pos := rfl

theorem matchF_seq_cons (f : Nat) (text : List Char) (child : Node)
    (rest : List Node) (pos : Int) :
    Node.matchF (f + 1) text (Node.seq (child :: rest)) pos =
      match Node.matchF f text child pos with
      | none => none
      | some next_pos =>
          if next_pos = -1 then some (-1)
          else Node.matchF f text (Node.seq rest) next_pos := rfl

/-- The number of consecutive characters of `text`, starting at position
`p`, accepted by `CharNode c`'s test (`text[pos] == c or c == '.'`): the
run that `StarNode(CharNode(c))`'s greedy loop consumes. -/
def starRun (c : Char) (text : List Char) (p : Nat) : Nat :=
  ((text.drop p).takeWhile (fun x => x == c || c == '.')).length

theorem starRun_of_le {c : Char} {text : List Char} {p : Nat}
    (h : text.length ≤ p) : starRun c text p = 0 := by
  unfold starRun
  rw [List.drop_eq_nil_of_le h]
  rfl

theorem starRun_pos {c : Char} {text : List Char} {p : Nat} (hp : p < text.length) :
    starRun c text p =
      (if text.get ⟨p, hp⟩ == c || c == '.' then starRun c text (p + 1) + 1 else 0) := by
  unfold starRun
  rw [List.drop_eq_getElem_cons hp, List.takeWhile_cons]
  split
  · simp_all
  · simp_all

/-- `StarNode(CharNode c).match(text, pos)`: greedily consume the maximal
run of accepted characters and return the position after it (never the
failure sentinel). -/
theorem star_char_run (c : Char) (text : List Char) : ∀ f (pos : Nat),
    2 ≤ f → text.length + 2 - pos ≤ f →
    Node.matchF f text (Node.star (Node.charNode c)) (pos : Int) =
      some (((pos + starRun c text pos : Nat) : Int)) := by
  intro f
  induction f with
  | zero => intro pos h1 h2; omega
  | succ g ihg =>
    intro pos h1 h2
    cases g with
    | zero => omega
    | succ g' =>
      rw [matchF_star_step, matchF_char]
      by_cases hp : pos < text.length
      · rw [if_pos (by constructor <;> [positivity; exact_mod_cast hp])]
        have htn : ((pos : Int)).toNat = pos := Int.toNat_natCast pos
        rw [htn, List.get?_eq_get hp]
        by_cases hcond : text.get ⟨pos, hp⟩ = c ∨ c = '.'
        · rw [if_pos (hcond.elim (fun h => Or.inl (by rw [h])) Or.inr)]
          dsimp only
          rw [if_neg (by omega)]
          have hcast : ((pos : Int) + 1) = (((pos + 1 : Nat)) : Int) := by push_cast; ring
          rw [hcast, ihg (pos + 1) (by omega) (by omega)]
          have hrun : starRun c text pos = starRun c text (pos + 1) + 1 := by
            rw [starRun_pos hp, if_pos (by simp_all)]
          rw [hrun]
          congr 1
          push_cast
          ring
        · rw [if_neg (by
            intro hor
            rcases hor with h | h
            · exact hcond (Or.inl (Option.some.inj h))
            · exact hcond (Or.inr h))]
          dsimp only
          rw [if_pos rfl]
          have hrun : starRun c text pos = 0 := by
            rw [starRun_pos hp, if_neg (by simp_all)]
          rw [hrun]
          norm_num
      · rw [if_neg (by
          intro hand
          exact hp (by exact_mod_cast hand.2))]
        dsimp only
        rw [if_pos rfl]
        rw [starRun_of_le (by omega)]
        norm_num

theorem star_char_neg (c : Char) (text : List Char) {f : Nat} {pos : Int}
    (hneg : pos < 0) (hf : 2 ≤ f) :
    Node.matchF f text (Node.star (Node.charNode c)) pos = some pos := by
  obtain ⟨g, rfl⟩ : ∃ g, f = g + 2 := ⟨f - 2, by omega⟩
  rw [show g + 2 = (g + 1) + 1 from rfl, matchF_star_step, matchF_char]
  rw [if_neg (fun hand => absurd hand.1 (by omega))]
  dsimp only
  rw [if_pos rfl]

/-- `StarNode(CharNode c).match` always converges once the fuel covers the
text length. -/
theorem star_char_isSome (c : Char) (text : List Char) {f : Nat} (pos : Int)
    (hf : text.length + 2 ≤ f) :
    (Node.matchF f text (Node.star (Node.charNode c)) pos).isSome = true := by
  by_cases hneg : pos < 0
  · rw [star_char_neg c text hneg (by omega)]; rfl
  · have hcast : pos = ((pos.toNat : Nat) : Int) := by omega
    rw [hcast, star_char_run c text f pos.toNat (by omega) (by omega)]
    rfl

/-- `PlusNode(CharNode c).match` always converges once the fuel covers the
text length. -/
theorem plus_char_isSome (c : Char) (text : List Char) {f : Nat} (pos : Int)
    (hf : text.length + 3 ≤ f) :
    (Node.matchF f text (Node.plus (Node.charNode c)) pos).isSome = true := by
  obtain ⟨g, rfl⟩ : ∃ g, f = g + 2 := ⟨f - 2, by omega⟩
  rw [show g + 2 = (g + 1) + 1 from rfl, matchF_plus_step, matchF_char]
  dsimp only
  by_cases hneg : (if 0 ≤ pos ∧ pos < (text.length : Int) then
      if text.get? pos.toNat = some c ∨ c = '.' then pos + 1 else -1
    else -1) = -1
  · rw [if_pos hneg]; rfl
  · rw [if_neg hneg]
    exact star_char_isSome c text _ (by omega)

theorem fuel_tail {M df dt f : Nat} (hM : 2 ≤ M) (hle : dt + 1 ≤ df)
    (hf : M * (df + 1) - 1 ≤ f) : M * (dt + 1) - 1 ≤ f - 1 := by
  have h1 : M * (dt + 1) ≤ M * df := Nat.mul_le_mul (le_refl M) hle
  have h2 : M * (df + 1) = M * df + M := Nat.mul_succ M df
  omega

theorem fuel_lb (M x f : Nat) (hf : M * (x + 1) - 1 ≤ f) : M - 1 ≤ f := by
  have h1 : M * 1 ≤ M * (x + 1) := Nat.mul_le_mul (le_refl M) (by omega)
  have h2 : M * 1 = M := Nat.mul_one M
  omega

theorem fuel_lb2 {M x f : Nat} (hx : 2 ≤ x) (hf : M * (x + 1) - 1 ≤ f) :
    M * 3 - 1 ≤ f := by
  have h2 : M * 3 ≤ M * (x + 1) := Nat.mul_le_mul (le_refl M) (by omega)
  omega

theorem question_char_isSome (c : Char) (text : List Char) {f : Nat} (pos : Int)
    (hf : 2 ≤ f) :
    (Node.matchF f text (Node.question (Node.charNode c)) pos).isSome = true := by
  obtain ⟨g, rfl⟩ : ∃ g, f = g + 2 := ⟨f - 2, by omega⟩
  rw [show g + 2 = (g + 1) + 1 from rfl, matchF_question_step, matchF_char]
  rfl

/-- Fuel sufficiency along the parser: matching the `SequenceNode` built by
`parse_sequence` converges (never exhausts its fuel) whenever the fuel is at
least `(text.length + 5) * (consumed + 1) - 1`, where `consumed` is the
number of pattern characters the parse consumed.  This is the shallow
embedding of "every `match` call of the source terminates". -/
theorem parse_match_suff : ∀ pfuel t text (pos : Int) f,
    (text.length + 5) * (((parse_sequence pfuel t).2.position - t.position) + 1) - 1 ≤ f →
    (Node.matchF f text (Node.seq (parse_sequence pfuel t).1) pos).isSome = true := by
  intro pfuel
  induction pfuel with
  | zero =>
    intro t text pos f hf
    simp only [parse_sequence] at hf ⊢
    have hlb := fuel_lb (text.length + 5) _ f hf
    obtain ⟨g, rfl⟩ : ∃ g, f = g + 1 := ⟨f - 1, by omega⟩
    rw [matchF_seq_nil]; rfl
  | succ pfuel ih =>
    intro t text pos f hf
    rcases hnt : next_token t with ⟨o, t1⟩
    cases o with
    | none =>
      obtain ⟨rfl, _⟩ := next_token_none hnt
      simp only [parse_sequence, hnt] at hf ⊢
      have hlb := fuel_lb (text.length + 5) _ f hf
      obtain ⟨g, rfl⟩ : ∃ g, f = g + 1 := ⟨f - 1, by omega⟩
      rw [matchF_seq_nil]; rfl
    | some tok =>
      obtain ⟨rfl, hlt⟩ := next_token_some hnt
      simp only [parse_sequence, hnt] at hf ⊢
      by_cases hc1 : tokenValue tok = '|' ∨ tokenValue tok = ')'
      · rw [if_pos hc1] at hf ⊢
        have hlb := fuel_lb (text.length + 5) _ f hf
        obtain ⟨g, rfl⟩ : ∃ g, f = g + 1 := ⟨f - 1, by omega⟩
        rw [matchF_seq_nil]; rfl
      rw [if_neg hc1] at hf ⊢
      by_cases hc2 : tokenValue tok = '('
      · -- group: a nested SequenceNode child, then the rest of the pattern
        rw [if_pos hc2] at hf ⊢
        obtain ⟨hp1, hmo1, _⟩ := parse_sequence_tok pfuel ⟨t.pattern, t.position + 1⟩
        simp only [mk_position] at hmo1
        by_cases hpk : peek (parse_sequence pfuel ⟨t.pattern, t.position + 1⟩).2 = some ')'
        · rw [if_pos hpk] at hf ⊢
          dsimp only at hf ⊢
          obtain ⟨hp2, hmo2, _⟩ := parse_sequence_tok pfuel
            (consume (parse_sequence pfuel ⟨t.pattern, t.position + 1⟩).2)
          simp only [consume_position] at hmo2
          have hlb := fuel_lb (text.length + 5) _ f hf
          obtain ⟨g, rfl⟩ : ∃ g, f = g + 1 := ⟨f - 1, by omega⟩
          have hhead := ih ⟨t.pattern, t.position + 1⟩ text pos g (by
            simp only [mk_position]
            have ht := fuel_tail (M := text.length + 5) (by omega)
              (show ((parse_sequence pfuel ⟨t.pattern, t.position + 1⟩).2.position
                  - (t.position + 1)) + 1 ≤
                (parse_sequence pfuel
                  (consume (parse_sequence pfuel ⟨t.pattern, t.position + 1⟩).2)).2.position
                  - t.position by omega) hf
            omega)
          rw [Option.isSome_iff_exists] at hhead
          obtain ⟨v, hv⟩ := hhead
          rw [matchF_seq_cons, hv]
          dsimp only
          by_cases hneg : v = -1
          · rw [if_pos hneg]; rfl
          · rw [if_neg hneg]
            exact ih (consume (parse_sequence pfuel ⟨t.pattern, t.position + 1⟩).2) text v g (by
              simp only [consume_position]
              have ht := fuel_tail (M := text.length + 5) (by omega)
                (show ((parse_sequence pfuel
                    (consume (parse_sequence pfuel ⟨t.pattern, t.position + 1⟩).2)).2.position
                    - ((parse_sequence pfuel ⟨t.pattern, t.position + 1⟩).2.position + 1)) + 1 ≤
                  (parse_sequence pfuel
                    (consume (parse_sequence pfuel ⟨t.pattern, t.position + 1⟩).2)).2.position
                    - t.position by omega) hf
              omega)
        · rw [if_neg hpk] at hf ⊢
          dsimp only at hf ⊢
          obtain ⟨hp2, hmo2, _⟩ := parse_sequence_tok pfuel
            (parse_sequence pfuel ⟨t.pattern, t.position + 1⟩).2
          have hlb := fuel_lb (text.length + 5) _ f hf
          obtain ⟨g, rfl⟩ : ∃ g, f = g + 1 := ⟨f - 1, by omega⟩
          have hhead := ih ⟨t.pattern, t.position + 1⟩ text pos g (by
            simp only [mk_position]
            have ht := fuel_tail (M := text.length + 5) (by omega)
              (show ((parse_sequence pfuel ⟨t.pattern, t.position + 1⟩).2.position
                  - (t.position + 1)) + 1 ≤
                (parse_sequence pfuel
                  (parse_sequence pfuel ⟨t.pattern, t.position + 1⟩).2).2.position
                  - t.position by omega) hf
            omega)
          rw [Option.isSome_iff_exists] at hhead
          obtain ⟨v, hv⟩ := hhead
          rw [matchF_seq_cons, hv]
          dsimp only
          by_cases hneg : v = -1
          · rw [if_pos hneg]; rfl
          · rw [if_neg hneg]
            exact ih (parse_sequence pfuel ⟨t.pattern, t.position + 1⟩).2 text v g (by
              have ht := fuel_tail (M := text.length + 5) (by omega)
                (show ((parse_sequence pfuel
                    (parse_sequence pfuel ⟨t.pattern, t.position + 1⟩).2).2.position
                    - (parse_sequence pfuel ⟨t.pattern, t.position + 1⟩).2.position) + 1 ≤
                  (parse_sequence pfuel
                    (parse_sequence pfuel ⟨t.pattern, t.position + 1⟩).2).2.position
                    - t.position by omega) hf
              omega)
      rw [if_neg hc2] at hf ⊢
      by_cases hc3 : tokenValue tok = '.'
      · rw [if_pos hc3] at hf ⊢
        dsimp only at hf ⊢
        obtain ⟨hp1, hmo1, _⟩ := parse_sequence_tok pfuel ⟨t.pattern, t.position + 1⟩
        simp only [mk_position] at hmo1
        have hlb := fuel_lb (text.length + 5) _ f hf
        obtain ⟨g', rfl⟩ : ∃ g', f = g' + 2 := ⟨f - 2, by omega⟩
        rw [show g' + 2 = (g' + 1) + 1 from rfl, matchF_seq_cons, matchF_dot]
        dsimp only
        by_cases hneg : (if pos < (text.length : Int) then pos + 1 else -1) = -1
        · rw [if_pos hneg]; rfl
        · rw [if_neg hneg]
          refine ih ⟨t.pattern, t.position + 1⟩ text _ (g' + 1) (by
            simp only [mk_position]
            have ht := fuel_tail (M := text.length + 5) (by omega)
              (show ((parse_sequence pfuel ⟨t.pattern, t.position + 1⟩).2.position
                  - (t.position + 1)) + 1 ≤
                (parse_sequence pfuel ⟨t.pattern, t.position + 1⟩).2.position
                  - t.position by omega) hf
            omega)
      rw [if_neg hc3] at hf ⊢
      by_cases hc4 : tokenValue tok = '^'
      · rw [if_pos hc4] at hf ⊢
        dsimp only at hf ⊢
        obtain ⟨hp1, hmo1, _⟩ := parse_sequence_tok pfuel ⟨t.pattern, t.position + 1⟩
        simp only [mk_position] at hmo1
        have hlb := fuel_lb (text.length + 5) _ f hf
        obtain ⟨g', rfl⟩ : ∃ g', f = g' + 2 := ⟨f - 2, by omega⟩
        rw [show g' + 2 = (g' + 1) + 1 from rfl, matchF_seq_cons, matchF_startAnchor]
        dsimp only
        by_cases hneg : (if pos = 0 then pos else -1) = -1
        · rw [if_pos hneg]; rfl
        · rw [if_neg hneg]
          refine ih ⟨t.pattern, t.position + 1⟩ text _ (g' + 1) (by
            simp only [mk_position]
            have ht := fuel_tail (M := text.length + 5) (by omega)
              (show ((parse_sequence pfuel ⟨t.pattern, t.position + 1⟩).2.position
                  - (t.position + 1)) + 1 ≤
                (parse_sequence pfuel ⟨t.pattern, t.position + 1⟩).2.position
                  - t.position by omega) hf
            omega)
      rw [if_neg hc4] at hf ⊢
      by_cases hc5 : tokenValue tok = '$'
      · rw [if_pos hc5] at hf ⊢
        dsimp only at hf ⊢
        obtain ⟨hp1, hmo1, _⟩ := parse_sequence_tok pfuel ⟨t.pattern, t.position + 1⟩
        simp only [mk_position] at hmo1
        have hlb := fuel_lb (text.length + 5) _ f hf
        obtain ⟨g', rfl⟩ : ∃ g', f = g' + 2 := ⟨f - 2, by omega⟩
        rw [show g' + 2 = (g' + 1) + 1 from rfl, matchF_seq_cons, matchF_endAnchor]
        dsimp only
        by_cases hneg : (if pos = (text.length : Int) then pos else -1) = -1
        · rw [if_pos hneg]; rfl
        · rw [if_neg hneg]
          refine ih ⟨t.pattern, t.position + 1⟩ text _ (g' + 1) (by
            simp only [mk_position]
            have ht := fuel_tail (M := text.length + 5) (by omega)
              (show ((parse_sequence pfuel ⟨t.pattern, t.position + 1⟩).2.position
                  - (t.position + 1)) + 1 ≤
                (parse_sequence pfuel ⟨t.pattern, t.position + 1⟩).2.position
                  - t.position by omega) hf
            omega)
      rw [if_neg hc5] at hf ⊢
      by_cases hq1 : peek ⟨t.pattern, t.position + 1⟩ = some '*'
      · rw [if_pos hq1] at hf ⊢
        dsimp only at hf ⊢
        obtain ⟨hp1, hmo1, _⟩ := parse_sequence_tok pfuel (consume ⟨t.pattern, t.position + 1⟩)
        simp only [consume_position, mk_position] at hmo1
        have hlb3 : (text.length + 5) * 3 - 1 ≤ f := fuel_lb2 (by omega) hf
        obtain ⟨g, rfl⟩ : ∃ g, f = g + 1 := ⟨f - 1, by omega⟩
        rw [matchF_seq_cons]
        have hstar := star_char_isSome (tokenValue tok) text (f := g) pos (by omega)
        rw [Option.isSome_iff_exists] at hstar
        obtain ⟨v, hv⟩ := hstar
        rw [hv]
        dsimp only
        by_cases hneg : v = -1
        · rw [if_pos hneg]; rfl
        · rw [if_neg hneg]
          refine ih (consume ⟨t.pattern, t.position + 1⟩) text v g (by
            simp only [consume_position, mk_position]
            have ht := fuel_tail (M := text.length + 5) (by omega)
              (show ((parse_sequence pfuel (consume ⟨t.pattern, t.position + 1⟩)).2.position
                  - (t.position + 1 + 1)) + 1 ≤
                (parse_sequence pfuel (consume ⟨t.pattern, t.position + 1⟩)).2.position
                  - t.position by omega) hf
            omega)
      rw [if_neg hq1] at hf ⊢
      by_cases hq2 : peek ⟨t.pattern, t.position + 1⟩ = some '+'
      · rw [if_pos hq2] at hf ⊢
        dsimp only at hf ⊢
        obtain ⟨hp1, hmo1, _⟩ := parse_sequence_tok pfuel (consume ⟨t.pattern, t.position + 1⟩)
        simp only [consume_position, mk_position] at hmo1
        have hlb3 : (text.length + 5) * 3 - 1 ≤ f := fuel_lb2 (by omega) hf
        obtain ⟨g, rfl⟩ : ∃ g, f = g + 1 := ⟨f - 1, by omega⟩
        rw [matchF_seq_cons]
        have hplus := plus_char_isSome (tokenValue tok) text (f := g) pos (by omega)
        rw [Option.isSome_iff_exists] at hplus
        obtain ⟨v, hv⟩ := hplus
        rw [hv]
        dsimp only
        by_cases hneg : v = -1
        · rw [if_pos hneg]; rfl
        · rw [if_neg hneg]
          refine ih (consume ⟨t.pattern, t.position + 1⟩) text v g (by
            simp only [consume_position, mk_position]
            have ht := fuel_tail (M := text.length + 5) (by omega)
              (show ((parse_sequence pfuel (consume ⟨t.pattern, t.position + 1⟩)).2.position
                  - (t.position + 1 + 1)) + 1 ≤
                (parse_sequence pfuel (consume ⟨t.pattern, t.position + 1⟩)).2.position
                  - t.position by omega) hf
            omega)
      rw [if_neg hq2] at hf ⊢
      by_cases hq3 : peek ⟨t.pattern, t.position + 1⟩ = some '?'
      · rw [if_pos hq3] at hf ⊢
        dsimp only at hf ⊢
        obtain ⟨hp1, hmo1, _⟩ := parse_sequence_tok pfuel (consume ⟨t.pattern, t.position + 1⟩)
        simp only [consume_position, mk_position] at hmo1
        have hlb3 : (text.length + 5) * 3 - 1 ≤ f := fuel_lb2 (by omega) hf
        obtain ⟨g, rfl⟩ : ∃ g, f = g + 1 := ⟨f - 1, by omega⟩
        rw [matchF_seq_cons]
        have hquest := question_char_isSome (tokenValue tok) text (f := g) pos (by omega)
        rw [Option.isSome_iff_exists] at hquest
        obtain ⟨v, hv⟩ := hquest
        rw [hv]
        dsimp only
        by_cases hneg : v = -1
        · rw [if_pos hneg]; rfl
        · rw [if_neg hneg]
          refine ih (consume ⟨t.pattern, t.position + 1⟩) text v g (by
            simp only [consume_position, mk_position]
            have ht := fuel_tail (M := text.length + 5) (by omega)
              (show ((parse_sequence pfuel (consume ⟨t.pattern, t.position + 1⟩)).2.position
                  - (t.position + 1 + 1)) + 1 ≤
                (parse_sequence pfuel (consume ⟨t.pattern, t.position + 1⟩)).2.position
                  - t.position by omega) hf
            omega)
      · rw [if_neg hq3] at hf ⊢
        dsimp only at hf ⊢
        obtain ⟨hp1, hmo1, _⟩ := parse_sequence_tok pfuel ⟨t.pattern, t.position + 1⟩
        simp only [mk_position] at hmo1
        have hlb := fuel_lb (text.length + 5) _ f hf
        obtain ⟨g', rfl⟩ : ∃ g', f = g' + 2 := ⟨f - 2, by omega⟩
        rw [show g' + 2 = (g' + 1) + 1 from rfl, matchF_seq_cons, matchF_char]
        dsimp only
        by_cases hneg : (if 0 ≤ pos ∧ pos < (text.length : Int) then
            if text.get? pos.toNat = some (tokenValue tok) ∨ tokenValue tok = '.'
            then pos + 1 else -1
          else -1) = -1
        · rw [if_pos hneg]; rfl
        · rw [if_neg hneg]
          refine ih ⟨t.pattern, t.position + 1⟩ text _ (g' + 1) (by
            simp only [mk_position]
            have ht := fuel_tail (M := text.length + 5) (by omega)
              (show ((parse_sequence pfuel ⟨t.pattern, t.position + 1⟩).2.position
                  - (t.position + 1)) + 1 ≤
                (parse_sequence pfuel ⟨t.pattern, t.position + 1⟩).2.position
                  - t.position by omega) hf
            omega)

/-! ### Literal patterns -/

theorem tokenValue_char (c : Char) : tokenValue (Token.char c) = c := rfl

theorem tokenValue_sym (c : Char) : tokenValue (Token.sym c) = c := rfl

theorem next_token_at_end {pat : List Char} {pos : Nat} (h : ¬ pos < pat.length) :
    next_token ⟨pat, pos⟩ = (none, ⟨pat, pos⟩) := by
  unfold next_token
  rw [dif_neg (by simpa using h)]

theorem next_token_char {pat : List Char} {pos : Nat} (hp : pos < pat.length)
    (hsym : pat.get ⟨pos, hp⟩ ∉ ['(', ')', '*', '+', '?', '.']) :
    next_token ⟨pat, pos⟩ = (some (Token.char (pat.get ⟨pos, hp⟩)), ⟨pat, pos + 1⟩) := by
  unfold next_token
  rw [dif_pos (by simpa using hp)]
  dsimp only
  rw [if_neg (by simpa using hsym)]

/-- The metacharacters of the engine's surface syntax. -/
def metaChars : List Char := ['(', ')', '*', '+', '?', '.', '^', '$', '|']

/-- A pattern with no metacharacter parses to one `CharNode` per character. -/
theorem parse_literal : ∀ fuel (pat : List Char) (pos : Nat),
    (∀ c ∈ pat, c ∉ metaChars) → pat.length - pos < fuel →
    (parse_sequence fuel ⟨pat, pos⟩).1 = (pat.drop pos).map Node.charNode := by
  intro fuel
  induction fuel with
  | zero => intro pat pos h hfu; omega
  | succ fuel ih =>
    intro pat pos h hfu
    by_cases hp : pos < pat.length
    · have hc : pat.get ⟨pos, hp⟩ ∈ pat := pat.get_mem _ _
      have hmeta := h _ hc
      have hsym : pat.get ⟨pos, hp⟩ ∉ ['(', ')', '*', '+', '?', '.'] := by
        intro hs
        apply hmeta
        simp only [metaChars, List.mem_cons, List.mem_singleton] at hs ⊢
        tauto
      have hpk : ∀ x : Char, x ∈ metaChars →
          peek (⟨pat, pos + 1⟩ : Tokenizer) ≠ some x := by
        intro x hx hpe
        rw [peek_eq_get?] at hpe
        exact absurd hx (h x (List.get?_mem hpe))
      simp only [parse_sequence, next_token_char hp hsym, tokenValue_char]
      rw [if_neg (by rintro (he | he) <;> (apply hmeta; rw [he]; decide))]
      rw [if_neg (fun he => hmeta (by rw [he]; decide))]
      rw [if_neg (fun he => hmeta (by rw [he]; decide))]
      rw [if_neg (fun he => hmeta (by rw [he]; decide))]
      rw [if_neg (fun he => hmeta (by rw [he]; decide))]
      rw [if_neg (hpk '*' (by decide)), if_neg (hpk '+' (by decide)),
        if_neg (hpk '?' (by decide))]
      dsimp only
      rw [ih pat (pos + 1) h (by omega)]
      rw [List.drop_eq_getElem_cons hp, List.map_cons]
      simp
    · simp only [parse_sequence, next_token_at_end hp]
      rw [List.drop_eq_nil_of_le (by omega)]
      rfl

/-- A `SequenceNode` of wildcard-free `CharNode`s consumes exactly its
literal characters: it succeeds from `pos` iff the text continues with
those characters, and then ends at `pos + length`. -/
theorem seq_char_match : ∀ (lits : List Char), '.' ∉ lits →
    ∀ (text : List Char) (pos : Nat) (f : Nat), lits.length + 1 ≤ f →
    Node.matchF f text (Node.seq (lits.map Node.charNode)) (pos : Int) =
      some (if (text.drop pos).take lits.length = lits
            then ((pos + lits.length : Nat) : Int) else -1) := by
  intro lits
  induction lits with
  | nil =>
    intro _ text pos f hf
    obtain ⟨g, rfl⟩ : ∃ g, f = g + 1 := ⟨f - 1, by omega⟩
    rw [List.map_nil, matchF_seq_nil]
    norm_num
  | cons c cs ih =>
    intro hdot text pos f hf
    have hcdot : c ≠ '.' := fun he => hdot (he ▸ List.mem_cons_self c cs)
    have hcs : '.' ∉ cs := fun hm => hdot (List.mem_cons_of_mem c hm)
    rw [List.length_cons] at hf
    obtain ⟨g', rfl⟩ : ∃ g', f = g' + 2 := ⟨f - 2, by omega⟩
    rw [List.map_cons, show g' + 2 = (g' + 1) + 1 from rfl, matchF_seq_cons, matchF_char]
    rw [List.length_cons]
    by_cases hp : pos < text.length
    · rw [if_pos ⟨by positivity, by exact_mod_cast hp⟩, Int.toNat_natCast,
        List.get?_eq_get hp]
      rw [List.drop_eq_getElem_cons hp, List.take_succ_cons]
      by_cases hm : text.get ⟨pos, hp⟩ = c
      · rw [if_pos (Or.inl (by rw [hm]))]
        dsimp only
        rw [if_neg (by omega)]
        rw [show ((pos : Int) + 1) = ((pos + 1 : Nat) : Int) by push_cast; ring]
        rw [ih hcs text (pos + 1) (g' + 1) (by omega)]
        have hhead : text[pos] = text.get ⟨pos, hp⟩ := rfl
        by_cases hcond : (text.drop (pos + 1)).take cs.length = cs
        · rw [if_pos hcond, if_pos (by rw [hhead, hm, hcond])]
          congr 1
          push_cast
          ring
        · rw [if_neg hcond, if_neg (by
            intro hco
            exact hcond (List.cons.injEq _ _ _ _ ▸ hco).2)]
      · rw [if_neg (fun ho => ho.elim (fun h1 => hm (Option.some.inj h1)) hcdot)]
        dsimp only
        rw [if_pos rfl]
        rw [if_neg (by
          intro hco
          exact hm ((List.cons.injEq _ _ _ _ ▸ hco).1))]
    · rw [if_neg (fun hand => hp (by exact_mod_cast hand.2))]
      dsimp only
      rw [if_pos rfl]
      rw [List.drop_eq_nil_of_le (by omega)]
      rw [if_neg (by simp)]

/-! ### Engine-level facts -/

/-- The engine's fuel always suffices: the match computation of the parsed
AST converges at every start position. -/
theorem engine_suff (pattern text : List Char) (pos : Int) :
    (Node.matchF (engineFuel pattern text) text (parse pattern) pos).isSome = true := by
  obtain ⟨_, _, hb⟩ := parse_sequence_tok (pattern.length + 1) ⟨pattern, 0⟩
  unfold parse
  apply parse_match_suff
  have h1 : ((parse_sequence (pattern.length + 1) ⟨pattern, 0⟩).2.position
      - (⟨pattern, 0⟩ : Tokenizer).position) + 1 ≤ pattern.length + 1 := by
    simp only [mk_position, mk_pattern] at hb ⊢
    omega
  have h2 := Nat.mul_le_mul (le_refl (text.length + 5)) h1
  unfold engineFuel
  omega

theorem RegexEngine_match_iff (pattern text : List Char) :
    RegexEngine_match pattern text = true ↔
      Node.matchF (engineFuel pattern text) text (parse pattern) 0
        = some ((text.length : Nat) : Int) := by
  unfold RegexEngine_match
  exact decide_eq_true_iff

/-- Evaluation of the AST of the pattern `.*` (a `DotNode` followed by the
literal `CharNode '*'`) on an arbitrary text. -/
theorem dotstar_eval (k : Nat) (text : List Char) :
    Node.matchF (k + 1 + 1 + 1) text (Node.seq [Node.dot, Node.charNode '*']) 0 =
      some (if 2 ≤ text.length ∧ text.get? 1 = some '*' then 2 else -1) := by
  rw [show ([Node.dot, Node.charNode '*'] : List Node)
      = Node.dot :: [Node.charNode '*'] from rfl,
    matchF_seq_cons, matchF_dot]
  by_cases h0 : (0 : Int) < (text.length : Int)
  · rw [if_pos h0]
    dsimp only
    rw [if_neg (by omega)]
    rw [show ([Node.charNode '*'] : List Node) = Node.charNode '*' :: [] from rfl,
      matchF_seq_cons, matchF_char]
    by_cases h1 : ((0 : Int) + 1) < (text.length : Int)
    · rw [if_pos ⟨by omega, h1⟩]
      have htn : ((0 : Int) + 1).toNat = 1 := rfl
      rw [htn]
      by_cases hstar : text.get? 1 = some '*'
      · rw [if_pos (Or.inl hstar)]
        dsimp only
        rw [if_neg (by omega), matchF_seq_nil]
        rw [if_pos ⟨by omega, hstar⟩]
        norm_num
      · rw [if_neg (fun ho => ho.elim hstar (by decide))]
        dsimp only
        rw [if_pos rfl]
        rw [if_neg (fun hand => hstar hand.2)]
    · rw [if_neg (fun hand => h1 hand.2)]
      dsimp only
      rw [if_pos rfl]
      rw [if_neg (fun hand => h1 (by omega))]
  · rw [if_neg h0]
    dsimp only
    rw [if_pos rfl]
    rw [if_neg (fun hand => h0 (by omega))]

/-! ### The claims -/

/-- Claim C1: for every pattern and text, `RegexEngine.match(text)` builds
the AST from the pattern (fresh `Tokenizer` at position 0, `Parser`) and
returns true iff matching that AST from position 0 converges and returns
exactly `length(text)` — fullmatch semantics. -/
theorem c1_engine_fullmatch (pattern text : List Char) :
    (Node.matchF (engineFuel pattern text) text
        (Node.seq (parse_sequence (pattern.length + 1) ⟨pattern, 0⟩).1) 0).isSome = true ∧
    (RegexEngine_match pattern text = true ↔
      Node.matchF (engineFuel pattern text) text
          (Node.seq (parse_sequence (pattern.length + 1) ⟨pattern, 0⟩).1) 0
        = some ((text.length : Nat) : Int)) :=
  ⟨engine_suff pattern text 0, RegexEngine_match_iff pattern text⟩

/-- Claim C2: every pattern string, malformed ones included, tokenizes and
parses — the parser's recursion terminates (its fueled embedding is stable
at fuel `pattern.length + 1`), the result is some `SequenceNode`, and the
engine's match computation converges to a boolean with no error signal. -/
theorem c2_parser_total (pattern : List Char) (fuel : Nat)
    (hfuel : pattern.length + 1 ≤ fuel) :
    parse_sequence fuel ⟨pattern, 0⟩ = parse_sequence (pattern.length + 1) ⟨pattern, 0⟩ ∧
    (∃ children, parse pattern = Node.seq children) ∧
    ∀ text, (Node.matchF (engineFuel pattern text) text (parse pattern) 0).isSome = true :=
  ⟨parse_sequence_stable fuel (pattern.length + 1) ⟨pattern, 0⟩
      (by simp only [mk_pattern, mk_position]; omega)
      (by simp only [mk_pattern, mk_position]; omega),
    ⟨_, rfl⟩,
    fun text => engine_suff pattern text 0⟩

theorem c2_parser_total_witness :
    (parse_sequence 10 ⟨"((a|".toList, 0⟩
        = parse_sequence ("((a|".toList.length + 1) ⟨"((a|".toList, 0⟩) ∧
    (∃ children, parse "((a|".toList = Node.seq children) ∧
    ∀ text, (Node.matchF (engineFuel "((a|".toList text) text
        (parse "((a|".toList) 0).isSome = true :=
  c2_parser_total "((a|".toList 10 (by decide)

/-- Claim C3 counterexample: the claim says `match(".*", text)` is true iff
`text` has exactly one character; at `text = "a"` (one character) the
engine returns false, refuting the claim. -/
theorem c3_dotstar_counterexample :
    ¬ (RegexEngine_match ".*".toList "a".toList = true ↔
        ("a".toList).length = 1) := by decide

/-- Claim C3 (amended): a quantifier after `.` is not recognized — `.*`
parses as a `DotNode` followed by the literal `CharNode '*'` — so
`match(".*", text)` is true iff `text` has exactly two characters and the
second one is `'*'`. -/
theorem c3_dotstar_amended :
    parse ".*".toList = Node.seq [Node.dot, Node.charNode '*'] ∧
    ∀ text : List Char, (RegexEngine_match ".*".toList text = true ↔
      text.length = 2 ∧ text.get? 1 = some '*') := by
  refine ⟨rfl, fun text => ?_⟩
  rw [RegexEngine_match_iff]
  rw [show parse ".*".toList = Node.seq [Node.dot, Node.charNode '*'] from rfl]
  have hfuel : engineFuel ".*".toList text = ((text.length + 5) * 3 - 3) + 1 + 1 + 1 := by
    unfold engineFuel
    rw [show (".*".toList.length) = 2 from rfl]
    omega
  rw [hfuel, dotstar_eval]
  constructor
  · intro hs
    have hv := Option.some.inj hs
    by_cases hcond : 2 ≤ text.length ∧ text.get? 1 = some '*'
    · rw [if_pos hcond] at hv
      exact ⟨by omega, hcond.2⟩
    · rw [if_neg hcond] at hv
      exfalso
      omega
  · rintro ⟨hl, hg⟩
    rw [if_pos ⟨by omega, hg⟩]
    congr 1
    omega

/-- Claim C4: quantifiers are greedy with no backtracking — a failed child
fails its whole `SequenceNode` immediately (no retreat into an earlier
quantifier), `StarNode(CharNode c)` always consumes the maximal run of
matching characters, and consequently `match("a*ab", "aab")` is false. -/
theorem c4_no_backtracking :
    (∀ (f : Nat) (text : List Char) (n : Node) (ns : List Node) (pos : Int),
        Node.matchF f text n pos = some (-1) →
        Node.matchF (f + 1) text (Node.seq (n :: ns)) pos = some (-1)) ∧
    (∀ (c : Char) (text : List Char) (pos : Nat) (f : Nat),
        text.length + 2 ≤ f →
        Node.matchF f text (Node.star (Node.charNode c)) (pos : Int) =
          some (((pos + starRun c text pos : Nat) : Int))) ∧
    RegexEngine_match "a*ab".toList "aab".toList = false := by
  refine ⟨?_, ?_, by decide⟩
  · intro f text n ns pos h
    rw [matchF_seq_cons, h]
    dsimp only
    rw [if_pos rfl]
  · intro c text pos f hff
    exact star_char_run c text f pos (by omega) (by omega)

theorem c4_no_backtracking_witness :
    Node.matchF 2 "b".toList (Node.seq [Node.charNode 'a']) 0 = some (-1) ∧
    Node.matchF 5 "aab".toList (Node.star (Node.charNode 'a')) 0 = some 2 ∧
    RegexEngine_match "a*ab".toList "aab".toList = false := by
  refine ⟨?_, ?_, c4_no_backtracking.2.2⟩
  · exact c4_no_backtracking.1 1 "b".toList (Node.charNode 'a') [] 0 (by decide)
  · have h := c4_no_backtracking.2.1 'a' "aab".toList 0 5 (by decide)
    rw [show (((0 + starRun 'a' "aab".toList 0 : Nat)) : Int) = 2 by decide] at h
    exact h

/-- Claim C5: `StarNode.match` never returns the failure sentinel (zero
repetitions already succeed, returning the given position when the child's
first attempt fails); `PlusNode.match` fails exactly when the child's first
attempt fails and otherwise continues exactly as `StarNode.match` from the
reached position; hence `match("a+b", "b")` is false and `match("a*b", "b")`
is true. -/
theorem c5_star_plus :
    (∀ (f : Nat) (text : List Char) (child : Node) (pos r : Int),
        pos ≠ -1 → Node.matchF f text (Node.star child) pos = some r → r ≠ -1) ∧
    (∀ (f : Nat) (text : List Char) (child : Node) (pos : Int),
        Node.matchF f text child pos = some (-1) →
        Node.matchF (f + 1) text (Node.star child) pos = some pos) ∧
    (∀ (f : Nat) (text : List Char) (child : Node) (pos : Int),
        Node.matchF f text child pos = some (-1) →
        Node.matchF (f + 1) text (Node.plus child) pos = some (-1)) ∧
    (∀ (f : Nat) (text : List Char) (child : Node) (pos m : Int),
        Node.matchF f text child pos = some m → m ≠ -1 →
        Node.matchF (f + 1) text (Node.plus child) pos =
          Node.matchF f text (Node.star child) m) ∧
    RegexEngine_match "a+b".toList "b".toList = false ∧
    RegexEngine_match "a*b".toList "b".toList = true := by
  refine ⟨?_, ?_, ?_, ?_, by decide, by decide⟩
  · intro f
    induction f with
    | zero => intro text child pos r hpos h; simp [Node.matchF] at h
    | succ g ih =>
      intro text child pos r hpos h
      rw [matchF_star_step] at h
      cases hm : Node.matchF g text child pos with
      | none => rw [hm] at h; simp at h
      | some next =>
        rw [hm] at h
        dsimp only at h
        by_cases hneg : next = -1
        · rw [if_pos hneg] at h
          exact (Option.some.inj h) ▸ hpos
        · rw [if_neg hneg] at h
          exact ih text child next r hneg h
  · intro f text child pos h
    rw [matchF_star_step, h]
    dsimp only
    rw [if_pos rfl]
  · intro f text child pos h
    rw [matchF_plus_step, h]
    dsimp only
    rw [if_pos rfl]
  · intro f text child pos m h hm
    rw [matchF_plus_step, h]
    dsimp only
    rw [if_neg hm]

theorem c5_star_plus_witness :
    (1 : Int) ≠ -1 ∧
    Node.matchF 2 "b".toList (Node.star (Node.charNode 'a')) 0 = some 0 ∧
    Node.matchF 2 "b".toList (Node.plus (Node.charNode 'a')) 0 = some (-1) ∧
    Node.matchF 3 "ab".toList (Node.plus (Node.charNode 'a')) 0 =
      Node.matchF 2 "ab".toList (Node.star (Node.charNode 'a')) 1 ∧
    RegexEngine_match "a+b".toList "b".toList = false ∧
    RegexEngine_match "a*b".toList "b".toList = true :=
  ⟨c5_star_plus.1 3 "ab".toList (Node.charNode 'a') 0 1 (by decide) (by decide),
    c5_star_plus.2.1 1 "b".toList (Node.charNode 'a') 0 (by decide),
    c5_star_plus.2.2.1 1 "b".toList (Node.charNode 'a') 0 (by decide),
    c5_star_plus.2.2.2.1 2 "ab".toList (Node.charNode 'a') 0 1 (by decide) (by decide),
    c5_star_plus.2.2.2.2.1, c5_star_plus.2.2.2.2.2⟩

/-- Claim C6: a pattern containing none of the metacharacters
`( ) * + ? . ^ $ |` matches a text iff the text equals the pattern
character for character. -/
theorem c6_literal_pattern (pattern text : List Char)
    (h : ∀ c ∈ pattern, c ∉ metaChars) :
    RegexEngine_match pattern text = true ↔ text = pattern := by
  have hparse : parse pattern = Node.seq (pattern.map Node.charNode) := by
    unfold parse
    rw [parse_literal (pattern.length + 1) pattern 0 h (by omega), List.drop_zero]
  have hdot : '.' ∉ pattern := fun hm => absurd (by decide : '.' ∈ metaChars) (h '.' hm)
  have hfuel : pattern.length + 1 ≤ engineFuel pattern text := by
    unfold engineFuel
    have := Nat.mul_le_mul (show 1 ≤ text.length + 5 by omega) (le_refl (pattern.length + 1))
    omega
  have heval := seq_char_match pattern hdot text 0 (engineFuel pattern text) hfuel
  simp only [Nat.cast_zero, List.drop_zero, Nat.zero_add] at heval
  rw [RegexEngine_match_iff, hparse, heval]
  constructor
  · intro hs
    have hv := Option.some.inj hs
    by_cases hcond : List.take pattern.length text = pattern
    · rw [if_pos hcond] at hv
      have hlen : pattern.length = text.length := by exact_mod_cast hv
      rw [← hcond, hlen, List.take_length]
    · rw [if_neg hcond] at hv
      exfalso
      omega
  · rintro rfl
    rw [if_pos (List.take_length text)]

theorem c6_literal_pattern_witness :
    (∀ c ∈ "ab".toList, c ∉ metaChars) ∧
    (RegexEngine_match "ab".toList "ab".toList = true ↔ "ab".toList = "ab".toList) :=
  ⟨by decide, c6_literal_pattern "ab".toList "ab".toList (by decide)⟩

/-- Claim C7: a quantifier right after a closing group parenthesis is not
recognized: `(ab)*` parses as the group followed by a literal `CharNode '*'`,
and `match("(ab)*", "abab")` is false. -/
theorem c7_group_not_quantified :
    parse "(ab)*".toList =
      Node.seq [Node.seq [Node.charNode 'a', Node.charNode 'b'], Node.charNode '*'] ∧
    RegexEngine_match "(ab)*".toList "abab".toList = false :=
  ⟨rfl, by decide⟩

theorem next_token_sym {pat : List Char} {pos : Nat} (hp : pos < pat.length)
    (hsym : pat.get ⟨pos, hp⟩ ∈ ['(', ')', '*', '+', '?', '.']) :
    next_token ⟨pat, pos⟩ = (some (Token.sym (pat.get ⟨pos, hp⟩)), ⟨pat, pos + 1⟩) := by
  unfold next_token
  rw [dif_pos (by simpa using hp)]
  dsimp only
  rw [if_pos (by simpa using hsym)]

/-- Claim C8: when the parser pulls a token whose character value is `|` or
`)`, it ends the current `SequenceNode` right there, building no
alternation node; so in `a|b` everything after the `|` is dropped:
`match("a|b", "a")` is true and `match("a|b", "b")` is false. -/
theorem c8_terminator :
    (∀ (pat : List Char) (pos fuel : Nat),
        (pat.get? pos = some '|' ∨ pat.get? pos = some ')') →
        parse_sequence (fuel + 1) ⟨pat, pos⟩ = ([], ⟨pat, pos + 1⟩)) ∧
    RegexEngine_match "a|b".toList "a".toList = true ∧
    RegexEngine_match "a|b".toList "b".toList = false := by
  refine ⟨?_, by decide, by decide⟩
  intro pat pos fuel hv
  rcases hv with h | h
  · obtain ⟨hp, hget⟩ := List.get?_eq_some.mp h
    simp only [parse_sequence, next_token_char hp (by rw [hget]; decide), tokenValue_char]
    rw [if_pos (Or.inl hget)]
  · obtain ⟨hp, hget⟩ := List.get?_eq_some.mp h
    simp only [parse_sequence, next_token_sym hp (by rw [hget]; decide), tokenValue_sym]
    rw [if_pos (Or.inr hget)]

theorem c8_terminator_witness :
    parse_sequence (3 + 1) ⟨"a|b".toList, 1⟩ = ([], ⟨"a|b".toList, 2⟩) ∧
    RegexEngine_match "a|b".toList "a".toList = true ∧
    RegexEngine_match "a|b".toList "b".toList = false :=
  ⟨c8_terminator.1 "a|b".toList 1 3 (Or.inl (by decide)),
    c8_terminator.2.1, c8_terminator.2.2⟩

/-- Claim C9: a `*`, `+` or `?` token that does not immediately follow a
plain literal character is parsed as a literal `CharNode` matching that
character itself: a lone quantifier pattern matches its own character, and
`(ab)*` matches the three-character text `ab*`. -/
theorem c9_quantifier_literal :
    (∀ c : Char, c = '*' ∨ c = '+' ∨ c = '?' →
        parse [c] = Node.seq [Node.charNode c] ∧ RegexEngine_match [c] [c] = true) ∧
    RegexEngine_match "(ab)*".toList "ab*".toList = true ∧
    RegexEngine_match "*".toList "*".toList = true := by
  refine ⟨?_, by decide, by decide⟩
  rintro c (rfl | rfl | rfl) <;> exact ⟨rfl, by decide⟩

theorem c9_quantifier_literal_witness :
    parse ['*'] = Node.seq [Node.charNode '*'] ∧
    RegexEngine_match ['*'] ['*'] = true :=
  c9_quantifier_literal.1 '*' (Or.inl rfl)

/-- Claim C10: `Engine.match` terminates on every pattern and text: the
parser's result is stable under any fuel beyond `pattern.length + 1`, and
the match computation of the parsed AST converges at the engine's fuel and
is stable under any larger fuel. -/
theorem c10_termination (pattern text : List Char) (pfuel fuel : Nat)
    (hp : pattern.length + 1 ≤ pfuel) (hf : engineFuel pattern text ≤ fuel) :
    Node.matchF fuel text (Node.seq (parse_sequence pfuel ⟨pattern, 0⟩).1) 0 =
      Node.matchF (engineFuel pattern text) text (parse pattern) 0 ∧
    (Node.matchF (engineFuel pattern text) text (parse pattern) 0).isSome = true := by
  have hstab : parse_sequence pfuel ⟨pattern, 0⟩
      = parse_sequence (pattern.length + 1) ⟨pattern, 0⟩ :=
    parse_sequence_stable pfuel (pattern.length + 1) ⟨pattern, 0⟩
      (by simp only [mk_pattern, mk_position]; omega)
      (by simp only [mk_pattern, mk_position]; omega)
  have hsome := engine_suff pattern text 0
  refine ⟨?_, hsome⟩
  rw [hstab, show Node.seq (parse_sequence (pattern.length + 1) ⟨pattern, 0⟩).1
      = parse pattern from rfl]
  rw [Option.isSome_iff_exists] at hsome
  obtain ⟨r, hr⟩ := hsome
  rw [hr]
  exact matchF_mono _ fuel text _ 0 r hf hr

theorem c10_termination_witness :
    (Node.matchF 99 "ab".toList (Node.seq (parse_sequence 9 ⟨"a*b".toList, 0⟩).1) 0 =
      Node.matchF (engineFuel "a*b".toList "ab".toList) "ab".toList
        (parse "a*b".toList) 0) ∧
    (Node.matchF (engineFuel "a*b".toList "ab".toList) "ab".toList
        (parse "a*b".toList) 0).isSome = true :=
  c10_termination "a*b".toList "ab".toList 9 99 (by decide) (by decide)
